import Mathlib

/-!
Verification of the `ledger` repository's statistical core against its
natural-language specification.

The Python sources are shallowly embedded in Lean 4:
* numpy float arrays become exact `ℚ`- or `ℝ`-valued lists / matrices;
* the dynamic 1-D / 2-D shape dispatch of `numpy.ndarray` becomes the
  inductive type `NDArr`, including numpy's broadcasting rule for
  subtracting a 2-D array from a 1-D array;
* external numerical providers (healpy smoothing, map2alm, LAPACK SVD)
  become explicit function parameters.

Sources embedded: `src/pbc/dual.py`, `src/pbc/stats.py`, `src/pbc/context.py`,
`scripts/06_jwst_p6_mask_aware.py`, `scripts/p6_rotation_audit.py`,
`scripts/03_desi_p5_audit.py`.
-/

namespace PbC

/-! ## numpy primitives used by the embedded code -/

/-- A numpy `ndarray` restricted to the shapes the embedded code handles:
1-D vectors and 2-D row-major matrices of exact rationals. -/
inductive NDArr where
  | one : List ℚ → NDArr
  | two : List (List ℚ) → NDArr
deriving DecidableEq

/-- `np.ndim`. -/
def ndimOf : NDArr → ℕ
  | .one _ => 1
  | .two _ => 2

/-- The rows of a 2-D array (junk `[]`-free default for the 1-D case,
which never occurs where this accessor is used). -/
def arrRows : NDArr → List (List ℚ)
  | .one _ => []
  | .two r => r

/-- `np.dot` on equal-length 1-D arrays. -/
def npDot (a b : List ℚ) : ℚ :=
  (List.zipWith (fun x y => x * y) a b).sum

/-- Matrix–vector product `m @ c` (row-major 2-D array times 1-D array). -/
def npMatVec (m : List (List ℚ)) (c : List ℚ) : List ℚ :=
  m.map (fun r => npDot r c)

/-- numpy subtraction `a - b` for the shape combinations the embedded code
produces, including the broadcast of a 1-D array across the rows of a 2-D
array: `(one a) - (two b)` has entry `(i, j)` equal to `a[j] - b[i][j]`. -/
def npSub : NDArr → NDArr → NDArr
  | .one a, .one b => .one (List.zipWith (fun x y => x - y) a b)
  | .one a, .two b => .two (b.map (fun row => List.zipWith (fun x y => x - y) a row))
  | .two a, .one b => .two (a.map (fun row => List.zipWith (fun x y => x - y) row b))
  | .two a, .two b => .two (List.zipWith (fun r s => List.zipWith (fun x y => x - y) r s) a b)

/-- `np.mean` of a 1-D array (empty array gives the `0/0 = 0` junk value of
exact division; numpy would give `nan`). -/
def npMean (xs : List ℚ) : ℚ := xs.sum / (xs.length : ℚ)

/-- `np.var` of a 1-D array with the default `ddof=0`: the mean of the
squared deviations from the mean. -/
def npVar (xs : List ℚ) : ℚ :=
  (xs.map (fun x => (x - npMean xs) ^ 2)).sum / (xs.length : ℚ)

/-- `np.var(xs, ddof=1)`: the sample variance. -/
def npVarSample (xs : List ℚ) : ℚ :=
  (xs.map (fun x => (x - npMean xs) ^ 2)).sum / ((xs.length : ℚ) - 1)

/-- `np.median`: middle element of the sorted data, or the average of the
two middle elements for even length. -/
def npMedian (xs : List ℚ) : ℚ :=
  let s := xs.insertionSort (fun a b => a ≤ b)
  let n := xs.length
  if n % 2 = 1 then s.getD (n / 2) 0
  else (s.getD (n / 2 - 1) 0 + s.getD (n / 2) 0) / 2

/-! ## `src/pbc/dual.py`: the posterior update engine -/

/-- Step 1 of `woodbury_update_covariance` / `calculate_mean_shift`:
the projection `v = Sigma_TE * c`, element-wise when `sigma_te` is 1-D
(diagonal representation), matrix–vector product when it is 2-D. -/
def vOf : NDArr → List ℚ → List ℚ
  | .one s, c => List.zipWith (fun x y => x * y) s c
  | .two m, c => npMatVec m c

/-- Step 2: the scalar denominator `k = 1 + lambda * c.T * v`. -/
def kOf (sigma : NDArr) (c : List ℚ) (lambda_gamma : ℚ) : ℚ :=
  1 + lambda_gamma * npDot c (vOf sigma c)

/-- `woodbury_update_covariance(sigma_te, c, lambda_gamma)` from
`src/pbc/dual.py`: returns `sigma_te - (lambda/k) * np.outer(v, v)`.
The source performs no check on `k`; in the exact embedding the division
by a zero `k` is the junk value `0` (the floats of the source give
`inf`/`nan` with only a runtime warning), and the function always
returns an array. -/
def woodbury_update_covariance (sigma_te : NDArr) (c : List ℚ) (lambda_gamma : ℚ) : NDArr :=
  let v := vOf sigma_te c
  let scale := lambda_gamma / kOf sigma_te c lambda_gamma
  let update := v.map (fun vi => v.map (fun vj => scale * (vi * vj)))
  npSub sigma_te (.two update)

/-- `calculate_mean_shift(mu_te, sigma_te, c, lambda_gamma)` from
`src/pbc/dual.py`: `delta_mu = (lambda * (mu.c) / k) * v`.  As in the
source there is no check on `k`. -/
def calculate_mean_shift (mu_te : List ℚ) (sigma_te : NDArr) (c : List ℚ)
    (lambda_gamma : ℚ) : List ℚ :=
  let v := vOf sigma_te c
  let overlap := npDot mu_te c
  v.map (fun vi => lambda_gamma * overlap / kOf sigma_te c lambda_gamma * vi)

/-- The matrix the claim's words `diag(Sigma) - (lambda/k) * (v outer v)`
describe for a 1-D `Sigma` (comparison definition following the claim,
not the source): the rank-1 update subtracted from the genuine diagonal
matrix of `Sigma`. -/
def woodburyDiagClaim (sigma c : List ℚ) (lambda_gamma : ℚ) : NDArr :=
  let v := vOf (.one sigma) c
  let scale := lambda_gamma / kOf (.one sigma) c lambda_gamma
  let diag := (List.range sigma.length).map
    (fun i => (List.range sigma.length).map (fun j => if i = j then sigma.getD i 0 else 0))
  npSub (.two diag) (.two (v.map (fun vi => v.map (fun vj => scale * (vi * vj)))))

/-! ## List access helper lemmas -/

theorem getD_map_of_lt {α β : Type} (f : α → β) (l : List α) (i : ℕ)
    (h : i < l.length) (d : β) (d0 : α) : (l.map f).getD i d = f (l.getD i d0) := by
  simp [List.getD_eq_getElem?_getD, List.getElem?_eq_getElem, h]

theorem getD_zipWith_of_lt {α β γ : Type} (f : α → β → γ) (l1 : List α) (l2 : List β)
    (i : ℕ) (h1 : i < l1.length) (h2 : i < l2.length) (d : γ) (d1 : α) (d2 : β) :
    (List.zipWith f l1 l2).getD i d = f (l1.getD i d1) (l2.getD i d2) := by
  have h : i < (List.zipWith f l1 l2).length := by
    simpa [List.length_zipWith] using ⟨h1, h2⟩
  simp [List.getD_eq_getElem?_getD, List.getElem?_eq_getElem, h, h1, h2]

theorem getD_range_of_lt (n i : ℕ) (h : i < n) (d : ℕ) :
    (List.range n).getD i d = i := by
  have h : i < (List.range n).length := by simpa using h
  rw [List.getD_eq_getElem?_getD, List.getElem?_eq_getElem h]
  simp

/-- Subtracting an all-zero list (given as a constant-`0` map over any list
at least as long) is the identity, entrywise. -/
theorem zipWith_sub_map_zero {β : Type} (r : List ℚ) (z : List β)
    (h : r.length ≤ z.length) :
    List.zipWith (fun x y => x - y) r (z.map (fun _ => (0:ℚ))) = r := by
  induction r generalizing z with
  | nil => simp
  | cons a r ih =>
    cases z with
    | nil => simp at h
    | cons b z =>
      simp only [List.map_cons, List.zipWith_cons_cons, sub_zero]
      exact congrArg _ (ih z (by simpa using h))

/-- Row-wise version of `zipWith_sub_map_zero`: subtracting a matrix all of
whose rows are the same all-zero list `z0` is the identity. -/
theorem zipWith_rows_sub_zero {γ : Type} (m : List (List ℚ)) (w : List γ) (z0 : List ℚ)
    (hlen : m.length ≤ w.length)
    (hrow : ∀ r ∈ m, List.zipWith (fun x y => x - y) r z0 = r) :
    List.zipWith (fun r s => List.zipWith (fun x y => x - y) r s) m (w.map (fun _ => z0)) = m := by
  induction m generalizing w with
  | nil => simp
  | cons r m ih =>
    cases w with
    | nil => simp at hlen
    | cons b w =>
      simp only [List.map_cons, List.zipWith_cons_cons]
      refine congrArg₂ _ (hrow r (by simp)) ?_
      exact ih w (by simpa using hlen) (fun r hr => hrow r (by simp [hr]))

/-! ## Claim theorems about `src/pbc/dual.py` -/

/-- C5 (code bug): at `sigma_te = [1]`, `c = [1]`, `lambda = -1` the Woodbury
denominator `k = 1 + lambda * (c . v)` is exactly `0`, yet both
`woodbury_update_covariance` and `calculate_mean_shift` perform no check and
return numeric arrays (the source divides `lambda / k` in floats, producing
`inf`/`nan` with at most a runtime warning; no `DegenerateStatistic` error
exists anywhere in the repository). -/
theorem woodbury_zero_denominator_returns :
    kOf (.one [1]) [1] (-1) = 0
    ∧ woodbury_update_covariance (.one [1]) [1] (-1) = .two [[1]]
    ∧ calculate_mean_shift [5] (.one [1]) [1] (-1) = [0] := by
  norm_num [kOf, woodbury_update_covariance, calculate_mean_shift, vOf, npDot, npSub]

/-- C3 (counterexample): with the diagonal-only 1-D representation
`Sigma = [1, 2]` and `c = [1, 1]`, `woodbury_update_covariance(Sigma, c, 0)`
does not return `Sigma`: numpy broadcasting of `sigma_te - update` yields the
full 2-D matrix `[[1, 2], [1, 2]]`, a different object from the 1-D input. -/
theorem woodbury_lambda_zero_diag_not_identity :
    woodbury_update_covariance (.one [1, 2]) [1, 1] 0 = .two [[1, 2], [1, 2]]
    ∧ woodbury_update_covariance (.one [1, 2]) [1, 1] 0 ≠ .one [1, 2] := by
  constructor
  · norm_num [kOf, woodbury_update_covariance, vOf, npDot, npSub]
  · simp [kOf, woodbury_update_covariance, vOf, npDot, npSub]

/-- C3 (amended): with coupling `lambda = 0`, `woodbury_update_covariance`
returns the full 2-D covariance unchanged, and for a diagonal-only 1-D
`Sigma` it returns the 2-D matrix each of whose rows equals `Sigma`
(numpy-elementwise equal to `Sigma` by broadcasting, but not the 1-D array
itself); `calculate_mean_shift` returns the zero vector exactly in both
representations. -/
theorem lambda_zero_identity (mu sigma c : List ℚ) (m : List (List ℚ))
    (hs : sigma.length = c.length) (hm : m.length = c.length)
    (hrows : ∀ r ∈ m, r.length = c.length) :
    woodbury_update_covariance (.two m) c 0 = .two m
    ∧ woodbury_update_covariance (.one sigma) c 0 = .two (List.replicate sigma.length sigma)
    ∧ calculate_mean_shift mu (.two m) c 0 = List.replicate m.length 0
    ∧ calculate_mean_shift mu (.one sigma) c 0 = List.replicate sigma.length 0 := by
  have hv2 : (vOf (.two m) c).length = m.length := by simp [vOf, npMatVec]
  have hv1 : (vOf (.one sigma) c).length = sigma.length := by simp [vOf, hs]
  refine ⟨?_, ?_, ?_, ?_⟩
  · simp only [woodbury_update_covariance, zero_div, zero_mul, npSub, NDArr.two.injEq]
    exact zipWith_rows_sub_zero m (vOf (.two m) c) _ (le_of_eq hv2.symm)
      (fun r hr => zipWith_sub_map_zero r _ (le_of_eq (by rw [hv2, hm, ← hrows r hr])))
  · simp only [woodbury_update_covariance, zero_div, zero_mul, npSub, NDArr.two.injEq,
      List.map_map, Function.comp_def]
    simp only [zipWith_sub_map_zero sigma (vOf (.one sigma) c) (le_of_eq hv1.symm)]
    rw [List.map_const', hv1]
  · simp only [calculate_mean_shift, zero_mul, zero_div, List.map_const', hv2]
  · simp only [calculate_mean_shift, zero_mul, zero_div, List.map_const', hv1]

/-- C3 (witness): the amended `lambda = 0` identity evaluated at
`mu = [3, 4]`, `Sigma = [1, 2]` (1-D) and `[[1, 2], [3, 4]]` (2-D),
`c = [5, 7]`. -/
theorem lambda_zero_identity_witness :
    woodbury_update_covariance (.two [[1, 2], [3, 4]]) [5, 7] 0 = .two [[1, 2], [3, 4]]
    ∧ woodbury_update_covariance (.one [1, 2]) [5, 7] 0 = .two (List.replicate 2 [1, 2])
    ∧ calculate_mean_shift [3, 4] (.two [[1, 2], [3, 4]]) [5, 7] 0 = List.replicate 2 0
    ∧ calculate_mean_shift [3, 4] (.one [1, 2]) [5, 7] 0 = List.replicate 2 0 :=
  lambda_zero_identity [3, 4] [1, 2] [5, 7] [[1, 2], [3, 4]]
    (by decide) (by decide) (by decide)

/-- C10 (counterexample): the claim's unconditional clause that the
off-diagonal entries of the result differ from those of
`diag(Sigma) - (lambda/k) * (v outer v)` is false wherever `Sigma[j] = 0`:
at `Sigma = [0, 1]`, `c = [1, 1]`, `lambda = 1`, the off-diagonal entry
`(1, 0)` of the code's result and of the diag-matrix version coincide
(both are `0`, since `v[0] = Sigma[0] * c[0] = 0` kills the rank-1 term
and the broadcast term `Sigma[0]` is itself `0`). -/
theorem woodbury_diag_offdiag_coincide_counterexample :
    ((arrRows (woodbury_update_covariance (.one [0, 1]) [1, 1] 1)).getD 1 []).getD 0 0
      = ((arrRows (woodburyDiagClaim [0, 1] [1, 1] 1)).getD 1 []).getD 0 0
    ∧ ((arrRows (woodbury_update_covariance (.one [0, 1]) [1, 1] 1)).getD 1 []).getD 0 0
      = 0 := by
  norm_num [woodbury_update_covariance, woodburyDiagClaim, kOf, vOf, npDot, npSub, arrRows,
    List.range_succ]

/-- C10 (amended): called with a diagonal-only 1-D `Sigma` of length `n`
(and `c` of the same length), `woodbury_update_covariance` returns a full
2-D `n × n` array whose `(i, j)` entry is
`Sigma[j] - (lambda/k) * v[i] * v[j]` with `v = Sigma * c` elementwise —
the 1-D `Sigma` is broadcast across the rows of the rank-1 update, so the
diagonal-only representation is not preserved, and wherever
`Sigma[j] ≠ 0` the off-diagonal `(i, j)` entry differs from that of
`diag(Sigma) - (lambda/k) * (v outer v)` (their difference is exactly
`Sigma[j]`, so they coincide when `Sigma[j] = 0`). -/
theorem woodbury_diag_branch_broadcast (sigma c : List ℚ) (lam : ℚ)
    (hlen : sigma.length = c.length) (i j : ℕ)
    (hi : i < sigma.length) (hj : j < sigma.length) (hij : i ≠ j)
    (hsj : sigma.getD j 0 ≠ 0) :
    ndimOf (woodbury_update_covariance (.one sigma) c lam) = 2
    ∧ (arrRows (woodbury_update_covariance (.one sigma) c lam)).length = sigma.length
    ∧ (∀ r ∈ arrRows (woodbury_update_covariance (.one sigma) c lam), r.length = sigma.length)
    ∧ ((arrRows (woodbury_update_covariance (.one sigma) c lam)).getD i []).getD j 0
        = sigma.getD j 0 - lam / kOf (.one sigma) c lam
            * ((vOf (.one sigma) c).getD i 0 * (vOf (.one sigma) c).getD j 0)
    ∧ ((arrRows (woodbury_update_covariance (.one sigma) c lam)).getD i []).getD j 0
        ≠ ((arrRows (woodburyDiagClaim sigma c lam)).getD i []).getD j 0 := by
  set v := vOf (.one sigma) c with hv
  have hvlen : v.length = sigma.length := by simp [hv, vOf, hlen]
  set scale := lam / kOf (.one sigma) c lam with hscale
  set update := v.map (fun vi => v.map (fun vj => scale * (vi * vj))) with hupdate
  have hulen : update.length = sigma.length := by simp [hupdate, hvlen]
  have hrows : arrRows (woodbury_update_covariance (.one sigma) c lam)
      = update.map (fun row => List.zipWith (fun x y => x - y) sigma row) := by
    simp only [woodbury_update_covariance, npSub, arrRows]
  have hrowD : (update.map (fun row => List.zipWith (fun x y => x - y) sigma row)).getD i []
      = List.zipWith (fun x y => x - y) sigma (v.map (fun vj => scale * (v.getD i 0 * vj))) := by
    rw [getD_map_of_lt _ update i (by rw [hulen]; exact hi) [] [],
        hupdate, getD_map_of_lt _ v i (by rw [hvlen]; exact hi) [] 0]
  have hentry : ((arrRows (woodbury_update_covariance (.one sigma) c lam)).getD i []).getD j 0
      = sigma.getD j 0 - scale * (v.getD i 0 * v.getD j 0) := by
    rw [hrows, hrowD,
        getD_zipWith_of_lt _ sigma _ j hj (by rw [List.length_map, hvlen]; exact hj) 0 0 0,
        getD_map_of_lt _ v j (by rw [hvlen]; exact hj) 0 0]
  have hdiagentry : ((arrRows (woodburyDiagClaim sigma c lam)).getD i []).getD j 0
      = 0 - scale * (v.getD i 0 * v.getD j 0) := by
    have hdrows : arrRows (woodburyDiagClaim sigma c lam)
        = List.zipWith (fun r s => List.zipWith (fun x y => x - y) r s)
            ((List.range sigma.length).map
              (fun a => (List.range sigma.length).map
                (fun b => if a = b then sigma.getD a 0 else 0)))
            update := by
      simp only [woodburyDiagClaim, npSub, arrRows, ← hv, ← hscale, ← hupdate]
    rw [hdrows,
        getD_zipWith_of_lt _ _ update i (by simpa using hi) (by rw [hulen]; exact hi) [] [] [],
        getD_map_of_lt _ _ i (by simpa using hi) [] 0, getD_range_of_lt _ _ hi 0,
        hupdate, getD_map_of_lt _ v i (by rw [hvlen]; exact hi) [] 0,
        getD_zipWith_of_lt _ _ _ j (by simpa using hj)
          (by rw [List.length_map, hvlen]; exact hj) 0 0 0,
        getD_map_of_lt _ _ j (by simpa using hj) 0 0, getD_range_of_lt _ _ hj 0,
        getD_map_of_lt _ v j (by rw [hvlen]; exact hj) 0 0]
    rw [if_neg hij]
  refine ⟨rfl, by rw [hrows, List.length_map, hulen], ?_, hentry, ?_⟩
  · intro r hr
    rw [hrows] at hr
    obtain ⟨row, hrow, rfl⟩ := List.mem_map.mp hr
    have : row.length = sigma.length := by
      rw [hupdate] at hrow
      obtain ⟨x, _, rfl⟩ := List.mem_map.mp hrow
      rw [List.length_map, hvlen]
    rw [List.length_zipWith, this, min_self]
  · rw [hentry, hdiagentry]
    intro h
    exact hsj (by linarith [sub_left_inj.mp h])

/-- C10 (witness): the broadcast description evaluated at
`Sigma = [1, 2]`, `c = [1, 1]`, `lambda = 1`, entry `(0, 1)`. -/
theorem woodbury_diag_branch_broadcast_witness :
    ndimOf (woodbury_update_covariance (.one [1, 2]) [1, 1] 1) = 2
    ∧ (arrRows (woodbury_update_covariance (.one [1, 2]) [1, 1] 1)).length = 2
    ∧ (∀ r ∈ arrRows (woodbury_update_covariance (.one [1, 2]) [1, 1] 1), r.length = 2)
    ∧ ((arrRows (woodbury_update_covariance (.one [1, 2]) [1, 1] 1)).getD 0 []).getD 1 0
        = List.getD [1, 2] 1 0 - 1 / kOf (.one [1, 2]) [1, 1] 1
            * ((vOf (.one [1, 2]) [1, 1]).getD 0 0 * (vOf (.one [1, 2]) [1, 1]).getD 1 0)
    ∧ ((arrRows (woodbury_update_covariance (.one [1, 2]) [1, 1] 1)).getD 0 []).getD 1 0
        ≠ ((arrRows (woodburyDiagClaim [1, 2] [1, 1] 1)).getD 0 []).getD 1 0 := by
  have h := woodbury_diag_branch_broadcast [1, 2] [1, 1] 1 (by decide) 0 1
    (by decide) (by decide) (by decide) (by norm_num)
  simpa using h

/-! ## The 2-D branch of the posterior update in `Matrix` form

For the exact-inverse property (the Woodbury identity) the 2-D branch of
`woodbury_update_covariance` is restated over `Matrix (Fin n) (Fin n) ℚ`:
`v = sigma_te @ c`, `k = 1 + lambda * np.dot(c, v)`, and the returned
matrix is `sigma_te - (lambda / k) * np.outer(v, v)`. -/

/-- The scalar `k` of the 2-D branch. -/
def kMat {n : ℕ} (sigma_te : Matrix (Fin n) (Fin n) ℚ) (c : Fin n → ℚ) (lambda_gamma : ℚ) : ℚ :=
  1 + lambda_gamma * Matrix.dotProduct c (sigma_te.mulVec c)

/-- The 2-D branch of `woodbury_update_covariance` over `Matrix`. -/
def woodburyMat {n : ℕ} (sigma_te : Matrix (Fin n) (Fin n) ℚ) (c : Fin n → ℚ)
    (lambda_gamma : ℚ) : Matrix (Fin n) (Fin n) ℚ :=
  sigma_te - (lambda_gamma / kMat sigma_te c lambda_gamma) •
    Matrix.vecMulVec (sigma_te.mulVec c) (sigma_te.mulVec c)

open Matrix in
theorem mul_vecMulVec {n : ℕ} (A : Matrix (Fin n) (Fin n) ℚ) (b c : Fin n → ℚ) :
    A * vecMulVec b c = vecMulVec (A.mulVec b) c := by
  ext i j
  simp only [mul_apply, vecMulVec_apply, mulVec, dotProduct, Finset.sum_mul]
  exact Finset.sum_congr rfl fun x _ => by ring

open Matrix in
theorem vecMulVec_mul {n : ℕ} (A : Matrix (Fin n) (Fin n) ℚ) (b c : Fin n → ℚ) :
    vecMulVec b c * A = vecMulVec b (vecMul c A) := by
  ext i j
  simp only [mul_apply, vecMulVec_apply, vecMul, dotProduct, Finset.mul_sum]
  exact Finset.sum_congr rfl fun x _ => by ring

open Matrix in
theorem vecMulVec_mul_vecMulVec {n : ℕ} (a b c d : Fin n → ℚ) :
    vecMulVec a b * vecMulVec c d = (b ⬝ᵥ c) • vecMulVec a d := by
  ext i j
  simp only [mul_apply, vecMulVec_apply, smul_apply, dotProduct, smul_eq_mul, Finset.sum_mul]
  exact Finset.sum_congr rfl fun x _ => by ring

open Matrix in
/-- C1: for a symmetric invertible full covariance `Sigma` and any `c` and
`lambda` with nonzero Woodbury denominator `k = 1 + lambda * (c . Sigma c)`,
the 2-D branch of `woodbury_update_covariance` returns
`Sigma - (lambda/k) * (v outer v)` with `v = Sigma c`, and that matrix is
exactly the inverse of the rank-1-updated precision matrix
`Sigma⁻¹ + lambda * c cᵀ`. -/
theorem woodbury_update_exact_inverse {n : ℕ} (Sigma : Matrix (Fin n) (Fin n) ℚ)
    (c : Fin n → ℚ) (lam : ℚ) (hsym : Sigma.IsSymm) (hdet : IsUnit Sigma.det)
    (hk : kMat Sigma c lam ≠ 0) :
    woodburyMat Sigma c lam
      = Sigma - (lam / kMat Sigma c lam) • vecMulVec (Sigma.mulVec c) (Sigma.mulVec c)
    ∧ woodburyMat Sigma c lam * (Sigma⁻¹ + lam • vecMulVec c c) = 1 := by
  have hSymm : Sigmaᵀ = Sigma := hsym
  set v := Sigma.mulVec c with hv
  set k := kMat Sigma c lam with hkdef
  set d := c ⬝ᵥ v with hd
  refine ⟨rfl, ?_⟩
  have h1 : Sigma * Sigma⁻¹ = 1 := Matrix.mul_nonsing_inv _ hdet
  have hvc : v = vecMul c Sigma := by rw [hv, ← Matrix.mulVec_transpose, hSymm]
  have h2 : Sigma * vecMulVec c c = vecMulVec v c := mul_vecMulVec Sigma c c
  have h3 : vecMulVec v v * Sigma⁻¹ = vecMulVec v c := by
    rw [vecMulVec_mul]
    refine congrArg _ ?_
    rw [hvc, Matrix.vecMul_vecMul, h1, Matrix.vecMul_one]
  have h4 : vecMulVec v v * vecMulVec c c = d • vecMulVec v c := by
    rw [vecMulVec_mul_vecMulVec, Matrix.dotProduct_comm, hd]
  have hcoef : lam - (lam / k + lam / k * (lam * d)) = 0 := by
    have hks : k = 1 + lam * d := hkdef
    field_simp
    rw [hks]; ring
  rw [woodburyMat, ← hv, ← hkdef, sub_mul, mul_add, mul_add, smul_mul_assoc, smul_mul_assoc,
    mul_smul_comm, mul_smul_comm, h1, h2, h3, h4]
  simp only [smul_smul]
  rw [← add_smul, add_sub_assoc, ← sub_smul, hcoef, zero_smul, add_zero]

open Matrix in
/-- C1 (witness): the Woodbury identity at `Sigma = [[2, 1], [1, 2]]`,
`c = (1, 0)`, `lambda = 1` (there `k = 3`). -/
theorem woodbury_update_exact_inverse_witness :
    woodburyMat !![(2:ℚ), 1; 1, 2] ![1, 0] 1
      = !![(2:ℚ), 1; 1, 2] - (1 / kMat !![(2:ℚ), 1; 1, 2] ![1, 0] 1) •
          Matrix.vecMulVec (Matrix.mulVec !![(2:ℚ), 1; 1, 2] ![1, 0])
            (Matrix.mulVec !![(2:ℚ), 1; 1, 2] ![1, 0])
    ∧ woodburyMat !![(2:ℚ), 1; 1, 2] ![1, 0] 1 *
        ((!![(2:ℚ), 1; 1, 2])⁻¹ + (1:ℚ) • Matrix.vecMulVec ![1, 0] ![1, 0]) = 1 :=
  woodbury_update_exact_inverse !![(2:ℚ), 1; 1, 2] ![1, 0] 1
    (show (!![(2:ℚ), 1; 1, 2])ᵀ = !![(2:ℚ), 1; 1, 2] by
      ext i j; fin_cases i <;> fin_cases j <;> rfl)
    (by rw [Matrix.det_fin_two_of]; norm_num)
    (by norm_num [kMat, Matrix.mulVec, Matrix.dotProduct, Fin.sum_univ_two])

/-! ## `src/pbc/stats.py`: the phase-alignment diagnostic

healpy stores `alm` coefficients in `m`-major order: for `m = 0..lmax`,
the degrees `l = m..lmax`.  `hp.Alm.getlmax(s)` recovers `lmax` from the
array size `s = (lmax+1)(lmax+2)/2` (invalid sizes are rejected), and
`hp.Alm.getlm` returns the degree `l` of each index. -/

/-- The healpy `(l, m)` index list for a given `lmax`. -/
def almLM (L : ℕ) : List (ℕ × ℕ) :=
  (List.range (L + 1)).flatMap (fun m => (List.range (L + 1 - m)).map (fun k => (m + k, m)))

/-- The degree `l` of healpy `alm` index `i` (the `ell` array of
`hp.Alm.getlm`). -/
def almEll (L i : ℕ) : ℕ := ((almLM L).getD i (0, 0)).1

/-- `hp.Alm.getlmax`: the unique `L` with `(L+1)(L+2)/2 = s`, if any
(healpy returns `-1`, and `getlm` then fails, for invalid sizes). -/
def getlmax (s : ℕ) : Option ℕ :=
  (List.range (s + 1)).find? (fun L => (L + 1) * (L + 2) / 2 == s)

/-- The indices selected by the degree-range mask
`(ell >= lmin) & (ell <= lmax)` of `calc_phase_alignment`. -/
def selIdx (L len lminv lmaxv : ℕ) : List ℕ :=
  (List.range len).filter (fun i => decide (lminv ≤ almEll L i ∧ almEll L i ≤ lmaxv))

/-- `calc_phase_alignment(alm_cmb, alm_ctx, lmin, lmax)` from
`src/pbc/stats.py`: the weighted mean cosine of the phase difference,
weighted by `|alm_ctx|`, over the selected degree range; `0.0` for an
empty selection or a zero weight sum; `ValueError` on a size mismatch. -/
noncomputable def calc_phase_alignment (alm_cmb alm_ctx : List ℂ) (lminv lmaxv : ℕ) :
    Except String ℝ :=
  if alm_cmb.length ≠ alm_ctx.length then
    .error "CMB and Context alms must have the same size."
  else
    match getlmax alm_cmb.length with
    | none => .error "invalid alm size"
    | some L =>
      let sel := selIdx L alm_cmb.length lminv lmaxv
      if sel.length = 0 then .ok 0
      else
        let weights := fun i => Complex.abs (alm_ctx.getD i 0)
        let delta_phi := fun i => Complex.arg (alm_cmb.getD i 0) - Complex.arg (alm_ctx.getD i 0)
        let numerator := (sel.map (fun i => weights i * Real.cos (delta_phi i))).sum
        let denominator := (sel.map weights).sum
        if denominator = 0 then .ok 0 else .ok (numerator / denominator)

/-- Every selected index is a valid index of the coefficient array. -/
theorem selIdx_lt {L len lminv lmaxv i : ℕ} (h : i ∈ selIdx L len lminv lmaxv) :
    i < len := by
  have := List.mem_filter.mp h
  simpa using List.mem_range.mp this.1

theorem list_sum_map_neg {ι : Type} (l : List ι) (f : ι → ℝ) :
    (l.map (fun i => -(f i))).sum = -((l.map f).sum) := by
  induction l with
  | nil => simp
  | cons a l ih => simp [ih]; ring

theorem list_abs_sum_le {ι : Type} (l : List ι) (f g : ι → ℝ)
    (h : ∀ i ∈ l, |f i| ≤ g i) :
    |(l.map f).sum| ≤ (l.map g).sum := by
  induction l with
  | nil => simp
  | cons a l ih =>
    simp only [List.map_cons, List.sum_cons]
    calc |f a + (l.map f).sum| ≤ |f a| + |(l.map f).sum| := abs_add _ _
      _ ≤ g a + (l.map g).sum :=
          add_le_add (h a (by simp)) (ih (fun i hi => h i (by simp [hi])))

/-- The anti-alignment kernel: flipping the sign of a coefficient shifts
its phase by `π`, so the weighted cosine term of `(-z, z)` is `-|z|`. -/
theorem abs_mul_cos_arg_neg (z : ℂ) :
    Complex.abs z * Real.cos (Complex.arg (-z) - Complex.arg z) = -(Complex.abs z) := by
  by_cases hz : z = 0
  · simp [hz]
  · have hnz : (-z : ℂ) ≠ 0 := neg_ne_zero.mpr hz
    have habs : Complex.abs z ≠ 0 := Complex.abs.ne_zero hz
    rw [Real.cos_sub, Complex.cos_arg hnz, Complex.cos_arg hz,
      Complex.sin_arg, Complex.sin_arg, Complex.abs.map_neg, Complex.neg_re, Complex.neg_im]
    have hsq : z.re ^ 2 + z.im ^ 2 = Complex.abs z ^ 2 := by
      rw [Complex.sq_abs, Complex.normSq_apply]; ring
    field_simp
    linear_combination (-(Complex.abs z) ^ 3) * hsq

/-- C2 (counterexample): `a = [0]` is a coefficient vector of valid
harmonic size (`lmax = 0`) whose selected range `[0, 0]` contains one
coefficient, yet `calc_phase_alignment(a, a, 0, 0)` returns `0.0`, not
`1.0`, and `calc_phase_alignment(-a, a, 0, 0)` returns `0.0`, not `-1.0`:
all selected weights `|a_i|` vanish, so the zero-weight guard fires. -/
theorem phase_alignment_zero_vector_counterexample :
    selIdx 0 1 0 0 = [0]
    ∧ calc_phase_alignment [0] [0] 0 0 = .ok 0
    ∧ ¬ (calc_phase_alignment [0] [0] 0 0 = .ok 1)
    ∧ ¬ (calc_phase_alignment (List.map (fun z => -z) [0]) [0] 0 0 = .ok (-1)) := by
  have hL : getlmax 1 = some 0 := by decide
  have hsel : selIdx 0 1 0 0 = [0] := by decide
  have heval : calc_phase_alignment [0] [0] 0 0 = .ok 0 := by
    simp [calc_phase_alignment, hL, hsel]
  have heval2 : calc_phase_alignment (List.map (fun z => -z) [(0:ℂ)]) [0] 0 0 = .ok 0 := by
    simp [calc_phase_alignment, hL, hsel]
  refine ⟨hsel, heval, ?_, ?_⟩
  · intro h
    rw [heval] at h
    exact absurd (Except.ok.inj h) (by norm_num)
  · intro h
    rw [heval2] at h
    exact absurd (Except.ok.inj h) (by norm_num)

/-- C2 (amended): for a coefficient vector `a` of valid harmonic size whose
selected degree range is non-empty and whose selected weight sum
`Σ |a_i|` is nonzero, `calc_phase_alignment(a, a)` is exactly `1.0` and
`calc_phase_alignment(-a, a)` is exactly `-1.0`. -/
theorem phase_alignment_self_alignment (a : List ℂ) (L lminv lmaxv : ℕ)
    (hL : getlmax a.length = some L)
    (hsel : selIdx L a.length lminv lmaxv ≠ [])
    (hw : ((selIdx L a.length lminv lmaxv).map (fun i => Complex.abs (a.getD i 0))).sum ≠ 0) :
    calc_phase_alignment a a lminv lmaxv = .ok 1
    ∧ calc_phase_alignment (a.map (fun z => -z)) a lminv lmaxv = .ok (-1) := by
  have hlen0 : ¬ ((selIdx L a.length lminv lmaxv).length = 0) :=
    fun h => hsel (List.length_eq_zero.mp h)
  constructor
  · simp only [calc_phase_alignment, hL, ne_eq, not_true_eq_false, if_false,
      eq_self_iff_true, sub_self, Real.cos_zero, mul_one, ite_false, ite_true,
      hlen0, if_neg hw, if_neg hlen0]
    exact congrArg Except.ok (div_self hw)
  · have key : ∀ i ∈ selIdx L a.length lminv lmaxv,
        Complex.abs (a.getD i 0) *
          Real.cos (Complex.arg ((a.map (fun z => -z)).getD i 0) - Complex.arg (a.getD i 0))
        = -(Complex.abs (a.getD i 0)) := by
      intro i hi
      rw [getD_map_of_lt (fun z => -z) a i (selIdx_lt hi) 0 0]
      exact abs_mul_cos_arg_neg _
    simp only [calc_phase_alignment, List.length_map, hL, ne_eq, not_true_eq_false,
      if_false, ite_false, ite_true, hlen0, if_neg hlen0]
    rw [List.map_congr_left key, list_sum_map_neg, if_neg hw, neg_div, div_self hw]

/-- C2 (witness): the amended self-alignment property at `a = [1]`
(`lmax = 0`, range `[0, 0]`, weight sum `1`). -/
theorem phase_alignment_self_alignment_witness :
    calc_phase_alignment [1] [1] 0 0 = .ok 1
    ∧ calc_phase_alignment (List.map (fun z => -z) [1]) [1] 0 0 = .ok (-1) :=
  phase_alignment_self_alignment [1] 0 0 0 (by decide) (by decide)
    (by simp only [List.length_singleton]
        rw [show selIdx 0 1 0 0 = [0] from by decide]
        simp)

/-- C7: for equal-length coefficient vectors of valid harmonic size,
`calc_phase_alignment` returns a real value in `[-1, 1]`; it returns `0.0`
for an empty degree selection and `0.0` for a zero selected weight sum, so
the final division never runs with a zero denominator. -/
theorem phase_alignment_bounded (a b : List ℂ) (L lminv lmaxv : ℕ)
    (hlen : a.length = b.length) (hL : getlmax a.length = some L) :
    ∃ r : ℝ, calc_phase_alignment a b lminv lmaxv = .ok r ∧ -1 ≤ r ∧ r ≤ 1
      ∧ (selIdx L a.length lminv lmaxv = [] → r = 0)
      ∧ (((selIdx L a.length lminv lmaxv).map (fun i => Complex.abs (b.getD i 0))).sum = 0
          → r = 0) := by
  have hb : b.length = a.length := hlen.symm
  by_cases hempty : selIdx L a.length lminv lmaxv = []
  · refine ⟨0, ?_, by norm_num, by norm_num, fun _ => rfl, fun _ => rfl⟩
    simp [calc_phase_alignment, hb, hL, hempty]
  · have hlen0 : ¬ ((selIdx L a.length lminv lmaxv).length = 0) :=
      fun h => hempty (List.length_eq_zero.mp h)
    by_cases hden : ((selIdx L a.length lminv lmaxv).map
        (fun i => Complex.abs (b.getD i 0))).sum = 0
    · refine ⟨0, ?_, by norm_num, by norm_num, fun h => absurd h hempty, fun _ => rfl⟩
      simp only [calc_phase_alignment, hb, hL, ne_eq, not_true_eq_false, if_false,
        ite_false, ite_true, hlen0, if_neg hlen0]
      rw [if_pos hden]
    · have hnn : (0:ℝ) ≤ ((selIdx L a.length lminv lmaxv).map
          (fun i => Complex.abs (b.getD i 0))).sum := by
        refine List.sum_nonneg ?_
        intro x hx
        obtain ⟨i, _, rfl⟩ := List.mem_map.mp hx
        exact Complex.abs.nonneg _
      have hpos : (0:ℝ) < ((selIdx L a.length lminv lmaxv).map
          (fun i => Complex.abs (b.getD i 0))).sum := lt_of_le_of_ne hnn (Ne.symm hden)
      have hnum : |((selIdx L a.length lminv lmaxv).map
          (fun i => Complex.abs (b.getD i 0) *
            Real.cos (Complex.arg (a.getD i 0) - Complex.arg (b.getD i 0)))).sum|
          ≤ ((selIdx L a.length lminv lmaxv).map (fun i => Complex.abs (b.getD i 0))).sum := by
        refine list_abs_sum_le _ _ _ ?_
        intro i _
        rw [abs_mul, abs_of_nonneg (Complex.abs.nonneg _)]
        exact mul_le_of_le_one_right (Complex.abs.nonneg _) (Real.abs_cos_le_one _)
      refine ⟨((selIdx L a.length lminv lmaxv).map
          (fun i => Complex.abs (b.getD i 0) *
            Real.cos (Complex.arg (a.getD i 0) - Complex.arg (b.getD i 0)))).sum /
            ((selIdx L a.length lminv lmaxv).map (fun i => Complex.abs (b.getD i 0))).sum,
        ?_, ?_, ?_, fun h => absurd h hempty, fun h => absurd h hden⟩
      · simp only [calc_phase_alignment, hb, hL, ne_eq, not_true_eq_false, if_false,
          ite_false, ite_true, hlen0, if_neg hlen0]
        rw [if_neg hden]
      · rw [le_div_iff₀ hpos]
        have := (abs_le.mp hnum).1
        linarith
      · rw [div_le_one hpos]
        have := le_abs_self (((selIdx L a.length lminv lmaxv).map
          (fun i => Complex.abs (b.getD i 0) *
            Real.cos (Complex.arg (a.getD i 0) - Complex.arg (b.getD i 0)))).sum)
        linarith [hnum]

/-- C7 (witness): the boundedness statement at `a = b = [1]`
(`lmax = 0`, range `[0, 0]`). -/
theorem phase_alignment_bounded_witness :
    ∃ r : ℝ, calc_phase_alignment [1] [1] 0 0 = .ok r ∧ -1 ≤ r ∧ r ≤ 1
      ∧ (selIdx 0 1 0 0 = [] → r = 0)
      ∧ (((selIdx 0 1 0 0).map (fun i => Complex.abs (List.getD [1] i 0))).sum = 0 → r = 0) :=
  phase_alignment_bounded [1] [1] 0 0 0 rfl (by decide)

/-! ## `src/pbc/context.py`: the mask builder

`build_mask` thresholds on `|x - median| < threshold_sigma * std` with
`std = sqrt(npVar)`.  Over exact arithmetic that float comparison is
equivalent to the square-root-free decidable test
`0 ≤ t ∧ (x - median)^2 < t^2 * var` (proved in `hardPass_iff_sqrt`
below), which is the form used in the embedding. -/

/-- The hard threshold test of `build_mask`: pixel `x` is kept when
`|x - median(map)| < threshold_sigma * std(map)`. -/
def hardPass (xs : List ℚ) (t x : ℚ) : Bool :=
  decide (0 ≤ t ∧ (x - npMedian xs) ^ 2 < t ^ 2 * npVar xs)

theorem npVar_nonneg (xs : List ℚ) : 0 ≤ npVar xs := by
  refine div_nonneg (List.sum_nonneg ?_) (by positivity)
  intro x hx
  obtain ⟨y, _, rfl⟩ := List.mem_map.mp hx
  positivity

/-- The decidable square form of the threshold test agrees with the
source's float comparison `|x - mu| < t * sqrt(var)`. -/
theorem hardPass_iff_sqrt (xs : List ℚ) (t x : ℚ) :
    hardPass xs t x = true
    ↔ |(x:ℝ) - (npMedian xs : ℝ)| < (t:ℝ) * Real.sqrt (npVar xs) := by
  have hv : (0:ℝ) ≤ (npVar xs : ℝ) := by exact_mod_cast npVar_nonneg xs
  have hs : (0:ℝ) ≤ Real.sqrt (npVar xs) := Real.sqrt_nonneg _
  rw [hardPass, decide_eq_true_iff]
  constructor
  · rintro ⟨ht, hsq⟩
    have ht' : (0:ℝ) ≤ (t:ℝ) := by exact_mod_cast ht
    have hsq' : ((x:ℝ) - (npMedian xs : ℝ)) ^ 2 < (t:ℝ) ^ 2 * (npVar xs : ℝ) := by
      exact_mod_cast hsq
    refine lt_of_pow_lt_pow_left₀ 2 (mul_nonneg ht' hs) ?_
    rw [mul_pow, sq_abs, Real.sq_sqrt hv]
    exact hsq'
  · intro h
    have habs : (0:ℝ) ≤ |(x:ℝ) - (npMedian xs : ℝ)| := abs_nonneg _
    have hpos : (0:ℝ) < (t:ℝ) * Real.sqrt (npVar xs) := lt_of_le_of_lt habs h
    have ht' : (0:ℝ) ≤ (t:ℝ) := by
      by_contra hneg
      push_neg at hneg
      exact absurd hpos (not_lt.mpr (mul_nonpos_of_nonpos_of_nonneg hneg.le hs))
    refine ⟨by exact_mod_cast ht', ?_⟩
    have : |(x:ℝ) - (npMedian xs : ℝ)| ^ 2 < ((t:ℝ) * Real.sqrt (npVar xs)) ^ 2 :=
      pow_lt_pow_left₀ h habs (by norm_num)
    rw [sq_abs, mul_pow, Real.sq_sqrt hv] at this
    exact_mod_cast this

/-- `build_mask(map_in, threshold_sigma, apod_arcmin)` from
`src/pbc/context.py`.  The healpy Gaussian smoothing `hp.smoothing` at the
`fwhm` derived from `apod_arcmin` is an external provider, abstracted as
the function parameter `smooth`; the embedding keeps the source's steps:
binary threshold mask, then (for a positive apodization scale) smooth,
clip into `[0, 1]`, and multiply back by the binary mask. -/
def build_mask (smooth : List ℚ → List ℚ) (map_in : List ℚ)
    (threshold_sigma apod_arcmin : ℚ) : List ℚ :=
  let mask_float := map_in.map (fun x => if hardPass map_in threshold_sigma x then (1:ℚ) else 0)
  if 0 < apod_arcmin then
    let mask_apod := (smooth mask_float).map (fun y => max 0 (min 1 y))
    List.zipWith (fun x y => x * y) mask_apod mask_float
  else mask_float

/-- C4: for every input field, threshold, apodization scale, and smoothing
provider, every pixel of the mask returned by `build_mask` lies in
`[0, 1]`, and every pixel whose value fails the hard threshold test is
exactly `0` in the returned mask, whatever the smoothing did. -/
theorem build_mask_bounds (smooth : List ℚ → List ℚ) (map_in : List ℚ)
    (ts apod : ℚ) (i : ℕ) (hi : i < (build_mask smooth map_in ts apod).length) :
    0 ≤ (build_mask smooth map_in ts apod).getD i 0
    ∧ (build_mask smooth map_in ts apod).getD i 0 ≤ 1
    ∧ (hardPass map_in ts (map_in.getD i 0) = false
        → (build_mask smooth map_in ts apod).getD i 0 = 0) := by
  set mask_float := map_in.map
    (fun x => if hardPass map_in ts x then (1:ℚ) else 0) with hmf
  have hmflen : mask_float.length = map_in.length := by rw [hmf, List.length_map]
  have hmfD : ∀ j, j < map_in.length →
      mask_float.getD j 0 = (if hardPass map_in ts (map_in.getD j 0) then (1:ℚ) else 0) := by
    intro j hj
    rw [hmf, getD_map_of_lt _ map_in j hj 0 0]
  by_cases hapod : 0 < apod
  · have hbm : build_mask smooth map_in ts apod
        = List.zipWith (fun x y => x * y)
            ((smooth mask_float).map (fun y => max 0 (min 1 y))) mask_float := by
      rw [build_mask, if_pos hapod]
    have hlen2 : i < ((smooth mask_float).map (fun y => max 0 (min 1 y))).length
        ∧ i < mask_float.length := by
      rw [hbm, List.length_zipWith, lt_min_iff] at hi
      exact hi
    have hD : (build_mask smooth map_in ts apod).getD i 0
        = ((smooth mask_float).map (fun y => max 0 (min 1 y))).getD i 0
            * mask_float.getD i 0 := by
      rw [hbm, getD_zipWith_of_lt _ _ _ i hlen2.1 hlen2.2 0 0 0]
    have hclipD : ((smooth mask_float).map (fun y => max 0 (min 1 y))).getD i 0
        = max 0 (min 1 ((smooth mask_float).getD i 0)) := by
      have : i < (smooth mask_float).length := by
        have := hlen2.1
        rwa [List.length_map] at this
      rw [getD_map_of_lt _ _ i this 0 0]
    have hclip0 : (0:ℚ) ≤ max 0 (min 1 ((smooth mask_float).getD i 0)) := le_max_left _ _
    have hclip1 : max 0 (min 1 ((smooth mask_float).getD i 0)) ≤ 1 :=
      max_le (by norm_num) (min_le_left _ _)
    have hi' : i < map_in.length := by rw [← hmflen]; exact hlen2.2
    have hmfval := hmfD i hi'
    refine ⟨?_, ?_, ?_⟩
    · rw [hD, hclipD, hmfval]
      by_cases hp : hardPass map_in ts (map_in.getD i 0)
      · rw [if_pos hp, mul_one]; exact hclip0
      · rw [if_neg hp, mul_zero]
    · rw [hD, hclipD, hmfval]
      by_cases hp : hardPass map_in ts (map_in.getD i 0)
      · rw [if_pos hp, mul_one]; exact hclip1
      · rw [if_neg hp, mul_zero]; norm_num
    · intro hfail
      rw [hD, hmfval, hfail, if_neg Bool.false_ne_true, mul_zero]
  · have hbm : build_mask smooth map_in ts apod = mask_float := by
      rw [build_mask, if_neg hapod]
    have hi' : i < map_in.length := by
      rw [hbm, hmflen] at hi; exact hi
    rw [hbm, hmfD i hi']
    refine ⟨?_, ?_, ?_⟩
    · by_cases hp : hardPass map_in ts (map_in.getD i 0)
      · rw [if_pos hp]; norm_num
      · rw [if_neg hp]
    · by_cases hp : hardPass map_in ts (map_in.getD i 0)
      · rw [if_pos hp]
      · rw [if_neg hp]; norm_num
    · intro hfail
      rw [hfail, if_neg Bool.false_ne_true]

/-- C4 (witness): the mask bounds at the field `[0, 10]` with
`threshold_sigma = 1`, `apod_arcmin = 1`, identity smoothing, pixel `1`
(there the median is `5`, the variance `25`, and both pixels fail the
hard test, so the mask is all zero). -/
theorem build_mask_bounds_witness :
    0 ≤ (build_mask id [0, 10] 1 1).getD 1 0
    ∧ (build_mask id [0, 10] 1 1).getD 1 0 ≤ 1
    ∧ (hardPass [0, 10] 1 (List.getD [0, 10] 1 0) = false
        → (build_mask id [0, 10] 1 1).getD 1 0 = 0) :=
  build_mask_bounds id [0, 10] 1 1 1
    (by norm_num [build_mask, hardPass, npMedian, npVar, npMean,
      List.insertionSort, List.orderedInsert])

/-! ## `src/pbc/context.py`: the context template builder

`build_context_template` reads the exposure, zodiacal and mask maps
(`read_map` / `build_mask` fallback — both paths end in a pixel-weight
map, taken here as the input `mask`), rotates Galactic → Ecliptic,
forward-transforms the masked maps, stacks the two `alm` vectors as the
columns of the design matrix `X`, and (with no systematics supplied)
returns the first left singular vector `U[:, 0]` of `np.linalg.svd(X)`.
The external providers (`hp.Rotator(...).rotate_map_pixel`,
`hp.map2alm(..., lmax)`, and the LAPACK SVD) are function parameters. -/
def build_context_template {npix N : ℕ}
    (rotate : (Fin npix → ℝ) → (Fin npix → ℝ))
    (map2alm : (Fin npix → ℝ) → (Fin N → ℂ))
    (svdU0 : Matrix (Fin N) (Fin 2) ℂ → (Fin N → ℂ))
    (exp_map zodi_map mask : Fin npix → ℝ) : Fin N → ℂ :=
  let exp_ecl := rotate exp_map
  let zodi_ecl := rotate zodi_map
  let alm_exp := map2alm (fun p => exp_ecl p * mask p)
  let alm_zodi := map2alm (fun p => zodi_ecl p * mask p)
  let X : Matrix (Fin N) (Fin 2) ℂ :=
    Matrix.of (fun i j => if j = 0 then alm_exp i else alm_zodi i)
  svdU0 X

/-- C9 (code bug): when the mask weights are all zero (an empty valid-pixel
set), `build_context_template` performs no emptiness check: both masked
maps are the zero map, the design matrix is the zero matrix, and the
function still returns `U[:, 0]` of the SVD of that zero matrix (numpy's
SVD of a zero matrix succeeds, yielding an arbitrary basis vector) instead
of failing fatally. The only hypothesis is the harmonic-transform
provider's linearity at zero: `map2alm` of the zero map is the zero
coefficient vector. -/
theorem build_context_template_empty_mask {npix N : ℕ}
    (rotate : (Fin npix → ℝ) → (Fin npix → ℝ))
    (map2alm : (Fin npix → ℝ) → (Fin N → ℂ))
    (svdU0 : Matrix (Fin N) (Fin 2) ℂ → (Fin N → ℂ))
    (exp_map zodi_map : Fin npix → ℝ)
    (h0 : map2alm (fun _ => 0) = fun _ => 0) :
    build_context_template rotate map2alm svdU0 exp_map zodi_map (fun _ => 0)
      = svdU0 (Matrix.of (fun _ _ => 0)) := by
  have hmask : ∀ f : Fin npix → ℝ, (fun p => f p * (0:ℝ)) = fun _ => (0:ℝ) := by
    intro f
    funext p
    exact mul_zero _
  rw [build_context_template]
  rw [hmask, hmask, h0]
  refine congrArg svdU0 ?_
  ext i j
  simp [Matrix.of_apply]

/-- C9 (witness): the no-error behaviour on an all-zero mask at
`npix = 1`, `N = 1`, identity rotation, `map2alm` reading off the single
pixel, and an SVD provider returning the constant vector `1` (numpy's
`U[:, 0]` for the `1 × 2` zero matrix is `[1]`). -/
theorem build_context_template_empty_mask_witness :
    @build_context_template 1 1 id (fun m _ => ((m 0 : ℝ) : ℂ))
      (fun _ _ => 1) (fun _ => 2) (fun _ => 3) (fun _ => 0)
      = (fun _ : Fin 1 => (1:ℂ)) :=
  build_context_template_empty_mask id (fun m _ => ((m 0 : ℝ) : ℂ)) (fun _ _ => 1)
    (fun _ => 2) (fun _ => 3) (by funext i; simp)

/-! ## List sums as `Fin`-indexed sums -/

theorem list_sum_fin (l : List ℚ) : l.sum = ∑ i : Fin l.length, l.get i := by
  conv_lhs => rw [← List.ofFn_get l]
  rw [List.sum_ofFn]

theorem list_map_sum_fin (l : List ℚ) (f : ℚ → ℚ) :
    (l.map f).sum = ∑ i : Fin l.length, f (l.get i) := by
  conv_lhs => rw [← List.ofFn_get l]
  rw [List.map_ofFn, List.sum_ofFn]
  rfl

/-! ## `scripts/06_jwst_p6_mask_aware.py` and `scripts/p6_rotation_audit.py`:
the variance-ratio audit -/

/-- The occupancy filter of `run_mask_aware_p6_audit`: retain the patch
counts exceeding `0.9` times their median. -/
def p6Filtered (counts : List ℚ) : List ℚ :=
  counts.filter (fun x => decide (npMedian counts * (9 / 10) < x))

/-- `v_ratio = np.var(filtered_counts) / np.mean(filtered_counts)` of
`run_mask_aware_p6_audit` (`np.var` default `ddof=0`). -/
def p6VRatio (counts : List ℚ) : ℚ :=
  npVar (p6Filtered counts) / npMean (p6Filtered counts)

/-- `sigma_v = np.sqrt(2 / n_patches)` of `run_mask_aware_p6_audit`. -/
noncomputable def p6SigmaV (counts : List ℚ) : ℝ :=
  Real.sqrt (2 / ((p6Filtered counts).length : ℝ))

/-- `significance = (v_ratio - 1) / sigma_v` of `run_mask_aware_p6_audit`. -/
noncomputable def p6Significance (counts : List ℚ) : ℝ :=
  ((p6VRatio counts : ℝ) - 1) / p6SigmaV counts

/-- `calculate_variance_ratio` from `scripts/p6_rotation_audit.py`
(statistics block, from the `valid_counts` of the fixed inner-8×8 mask):
`0.0` for no retained bins or a zero mean, else
`np.var(valid_counts, ddof=1) / mean`.  No significance is computed
there. -/
def calculate_variance_ratio (valid_counts : List ℚ) : ℚ :=
  if valid_counts.length = 0 then 0
  else if npMean valid_counts = 0 then 0
  else npVarSample valid_counts / npMean valid_counts

/-- The claim's variance ratio (comparison definition following the
claim's words): sample variance over sample mean of the retained counts. -/
def specVRatio (xs : List ℚ) : ℚ := npVarSample xs / npMean xs

/-- The claim's Poisson-null standard error (comparison definition
following the claim's words): `sqrt(2 / (M - 1))` for `M` retained bins. -/
noncomputable def specSigmaV (xs : List ℚ) : ℝ :=
  Real.sqrt (2 / ((xs.length : ℝ) - 1))

/-- C6 (counterexample): for raw patch counts `[10, 12]` (both retained by
the occupancy filter, median `11`, threshold `9.9`), the mask-aware audit
computes `V = np.var(ddof=0)/mean = 1/11`, not the claimed sample-variance
ratio `2/11`, and computes the standard error `sqrt(2/M) = sqrt(2/2) = 1`,
not the claimed `sqrt(2/(M-1)) = sqrt 2`. -/
theorem variance_ratio_counterexample :
    p6Filtered [10, 12] = [10, 12]
    ∧ p6VRatio [10, 12] = 1 / 11
    ∧ specVRatio (p6Filtered [10, 12]) = 2 / 11
    ∧ p6VRatio [10, 12] ≠ specVRatio (p6Filtered [10, 12])
    ∧ p6SigmaV [10, 12] = 1
    ∧ specSigmaV (p6Filtered [10, 12]) = Real.sqrt 2
    ∧ p6SigmaV [10, 12] ≠ specSigmaV (p6Filtered [10, 12]) := by
  have hfil : p6Filtered [10, 12] = [10, 12] := by
    norm_num [p6Filtered, npMedian, List.insertionSort, List.orderedInsert, List.filter]
  have hV : p6VRatio [10, 12] = 1 / 11 := by
    rw [p6VRatio, hfil]
    norm_num [npVar, npMean]
  have hSpecV : specVRatio (p6Filtered [10, 12]) = 2 / 11 := by
    rw [hfil, specVRatio]
    norm_num [npVarSample, npMean]
  have hSig : p6SigmaV [10, 12] = 1 := by
    rw [p6SigmaV, hfil]
    norm_num [Real.sqrt_one]
  have hSpecSig : specSigmaV (p6Filtered [10, 12]) = Real.sqrt 2 := by
    rw [hfil, specSigmaV]
    norm_num
  refine ⟨hfil, hV, hSpecV, ?_, hSig, hSpecSig, ?_⟩
  · rw [hV, hSpecV]; norm_num
  · rw [hSig, hSpecSig]
    intro h
    have h2 : Real.sqrt 2 ^ 2 = 2 := Real.sq_sqrt (by norm_num)
    rw [← h] at h2
    norm_num at h2

/-- The amended variance ratio of the mask-aware audit (independent
formula): population variance over mean, written with explicit
`Fin`-indexed sums. -/
def amendedV {M : ℕ} (x : Fin M → ℚ) : ℚ :=
  ((∑ i, (x i - (∑ j, x j) / (M : ℚ)) ^ 2) / (M : ℚ)) / ((∑ j, x j) / (M : ℚ))

/-- The amended significance of the mask-aware audit (independent
formula): `(V - 1) / sqrt(2 / M)`. -/
noncomputable def amendedSignificance {M : ℕ} (x : Fin M → ℚ) : ℝ :=
  ((amendedV x : ℝ) - 1) / Real.sqrt (2 / (M : ℝ))

/-- The rotation audit's variance ratio (independent formula): sample
variance (`ddof=1`) over mean. -/
def sampleV {M : ℕ} (x : Fin M → ℚ) : ℚ :=
  ((∑ i, (x i - (∑ j, x j) / (M : ℚ)) ^ 2) / ((M : ℚ) - 1)) / ((∑ j, x j) / (M : ℚ))

/-- C6 (amended): for the M retained bins, the mask-aware audit computes
`V` as the population (`ddof=0`) variance divided by the mean and reports
`significance = (V - 1) / sqrt(2/M)`; the rotation audit's
`calculate_variance_ratio` computes the sample (`ddof=1`) variance divided
by the mean (guarded against no bins and a zero mean) and reports no
significance. -/
theorem variance_ratio_audit_formulas (counts valid : List ℚ) :
    p6VRatio counts
      = amendedV (fun i : Fin (p6Filtered counts).length => (p6Filtered counts).get i)
    ∧ p6Significance counts
      = amendedSignificance (fun i : Fin (p6Filtered counts).length => (p6Filtered counts).get i)
    ∧ (valid ≠ [] → npMean valid ≠ 0 →
        calculate_variance_ratio valid = sampleV (fun i : Fin valid.length => valid.get i)) := by
  have hV : p6VRatio counts
      = amendedV (fun i : Fin (p6Filtered counts).length => (p6Filtered counts).get i) := by
    rw [p6VRatio, amendedV, npVar, npMean, list_map_sum_fin, list_sum_fin]
  refine ⟨hV, ?_, ?_⟩
  · rw [p6Significance, amendedSignificance, hV, p6SigmaV]
  · intro hne hmean
    rw [calculate_variance_ratio, if_neg (fun h => hne (List.length_eq_zero.mp h)),
      if_neg hmean, sampleV, npVarSample, npMean, list_map_sum_fin, list_sum_fin]

/-- C6 (witness): the amended audit formulas at retained counts
`[10, 12]`. -/
theorem variance_ratio_audit_formulas_witness :
    p6VRatio [10, 12]
      = amendedV (fun i : Fin (p6Filtered [10, 12]).length => (p6Filtered [10, 12]).get i)
    ∧ calculate_variance_ratio [10, 12]
      = sampleV (fun i : Fin (List.length [10, 12]) => List.get [10, 12] i) :=
  ⟨(variance_ratio_audit_formulas [10, 12] [10, 12]).1,
   (variance_ratio_audit_formulas [10, 12] [10, 12]).2.2 (by simp)
     (by norm_num [npMean])⟩

/-! ## `scripts/03_desi_p5_audit.py`: the jackknife significance -/

/-- `variance = ((n_jackknife - 1) / n_jackknife) * np.sum((jk_shifts -
mean_jk)**2)` of `run_robust_p5_audit`, parametric in the `K = len(jk_shifts)`
leave-one-out statistic values. -/
def jackknife_variance (jk_shifts : List ℚ) : ℚ :=
  (((jk_shifts.length : ℚ) - 1) / (jk_shifts.length : ℚ)) *
    ((jk_shifts.map (fun s => (s - npMean jk_shifts) ^ 2)).sum)

/-- `error_bar = np.sqrt(variance)` of `run_robust_p5_audit`. -/
noncomputable def jackknife_error (jk_shifts : List ℚ) : ℝ :=
  Real.sqrt (jackknife_variance jk_shifts)

/-- `significance = abs(global_dz) / error_bar` of `run_robust_p5_audit`,
with `global_dz` the statistic on the full dataset. -/
noncomputable def jackknife_significance (global_dz : ℚ) (jk_shifts : List ℚ) : ℝ :=
  |(global_dz : ℝ)| / jackknife_error jk_shifts

/-- The claim's jackknife error (comparison definition following the
claim's words): `sqrt(((K-1)/K) * sum_i (s_i - mean s)^2)` in the reals,
with explicit `Fin`-indexed sums. -/
noncomputable def specJackknifeError {K : ℕ} (s : Fin K → ℚ) : ℝ :=
  Real.sqrt ((((K : ℝ) - 1) / (K : ℝ)) * ∑ i, ((s i : ℝ) - (∑ j, (s j : ℝ)) / (K : ℝ)) ^ 2)

/-- C8: the jackknife error estimate computed by the audit equals
`sqrt(((K-1)/K) * Σ (s_i - mean s)²)` over the `K` leave-one-out values,
and the reported significance is `|s_obs|` divided by that error. -/
theorem jackknife_significance_formula (global_dz : ℚ) (jk_shifts : List ℚ) :
    jackknife_error jk_shifts
      = specJackknifeError (fun i : Fin jk_shifts.length => jk_shifts.get i)
    ∧ jackknife_significance global_dz jk_shifts
      = |(global_dz : ℝ)|
          / specJackknifeError (fun i : Fin jk_shifts.length => jk_shifts.get i) := by
  have herr : jackknife_error jk_shifts
      = specJackknifeError (fun i : Fin jk_shifts.length => jk_shifts.get i) := by
    rw [jackknife_error, specJackknifeError]
    refine congrArg Real.sqrt ?_
    rw [jackknife_variance, npMean, list_map_sum_fin, list_sum_fin]
    push_cast
    ring
  exact ⟨herr, by rw [jackknife_significance, herr]⟩

end PbC
